import Mathlib

/-!
Verification development for the remote MongoDB queue-group manager
(`remoteMongoQueueGroup` and `NewMongoRemoteQueueGroup` in the queue
package).

The Go code is shallowly embedded as follows.

* Go strings are byte sequences; they are modelled as `List Char`
  (`Str` below).  String operations (`strings.TrimPrefix`,
  `strings.TrimSuffix`, concatenation) are translated literally.
* The manager state (`remoteMongoQueueGroup`) becomes the `QueueGroup`
  structure.  The two Go maps `queues` and `ttlMap` are modelled as
  association lists with Go-map semantics (`lookupA`, `insertA`,
  `eraseA`): lookup finds the entry for a key, insert replaces the
  existing entry or appends a new one, delete removes the entries of a
  key.  Queue handles (`amboy.Queue` values) are opaque and modelled by
  a `Nat` identity.
* `time.Time` / `time.Duration` are modelled as `Int` instants and
  durations; `time.Since t` is `now - t`, and the methods take `now`
  explicitly.
* The MongoDB store is external to the repository and is modelled as a
  list of collections, each with a name, a document list exposing the
  fields the code queries (`status.completed`, `status.in_prog`,
  `status.mod_ts`), and a failure flag that makes `CountDocuments`
  return an error (to model store I/O failures).  `ListCollections`
  with the `^prefix.*` regex is modelled as filtering collection names
  by the string prefix.  `Drop` removes the collection and is modelled
  as always succeeding.
* The fallible collaborators of `startProcessingRemoteQueue` (the
  client-supplied constructor, `OpenNewMongoDriver`, `SetDriver`,
  `Start`) are modelled by an `Env` record of their outcomes; errors
  are strings and `errors.Wrap err msg` is `msg ++ ": " ++ err`.
* The bounded worker pool of `Prune` (one goroutine per CPU consuming
  the `collsDropChan` channel) is determinized: channel items are
  consumed in FIFO order, and a worker whose body executes `return`
  (on a count error or a nonzero count) dies.  An item is processed
  exactly when fewer than `numCPU` of the earlier items killed their
  worker; this processed-set is the same under every interleaving of
  the pool, so the determinization is faithful.  Locks disappear in
  this single-threaded view: each exported method is one atomic step.
-/

abbrev Str := List Char

/-- Go map read `m[k]`. -/
def lookupA {α : Type} (l : List (Str × α)) (k : Str) : Option α :=
  match l with
  | [] => none
  | (k', v) :: rest => if k' = k then some v else lookupA rest k

/-- Go map write `m[k] = v`: replace the entry of `k`, or append one. -/
def insertA {α : Type} (l : List (Str × α)) (k : Str) (v : α) : List (Str × α) :=
  match l with
  | [] => [(k, v)]
  | (k', v') :: rest => if k' = k then (k, v) :: rest else (k', v') :: insertA rest k v

/-- Go map delete `delete(m, k)`. -/
def eraseA {α : Type} (l : List (Str × α)) (k : Str) : List (Str × α) :=
  l.filter (fun p => p.1 ≠ k)

/-- `delete` applied to each id drained from a deletion channel. -/
def eraseAllA {α : Type} (l : List (Str × α)) (ks : List Str) : List (Str × α) :=
  ks.foldl (fun m k => eraseA m k) l

/-- Go `strings.TrimPrefix(s, p)`. -/
def trimPrefixStr (s p : Str) : Str :=
  if p.isPrefixOf s then s.drop p.length else s

/-- Go `strings.TrimSuffix(s, suf)`. -/
def trimSuffixStr (s suf : Str) : Str :=
  if suf.isSuffixOf s then s.take (s.length - suf.length) else s

/-- Modelled from the spec: the queue-collection suffix appended by the
`addJobsSuffix` helper, which lives in the queue package outside the
provided sources.  The spec's naming convention and its scenario
(`"svc.alpha.jobs"` for prefix `"svc."` and id `"alpha"`) fix it to
`".jobs"`. -/
def jobsSuffix : Str := ".jobs".toList

/-- Modelled from the spec: `addJobsSuffix(s)` appends the queue
suffix to a collection name (missing from the provided sources; the
spec states collection name = prefix + logical id + queue suffix). -/
def addJobsSuffix (s : Str) : Str := s ++ jobsSuffix

/-- Modelled from the spec: `trimJobsSuffix(s)` strips the queue
suffix (missing from the provided sources; the spec states logical-id
recovery strips the queue suffix), with Go `strings.TrimSuffix`
semantics. -/
def trimJobsSuffix (s : Str) : Str := trimSuffixStr s jobsSuffix

/-- `(g *remoteMongoQueueGroup) collectionFromID`. -/
def collectionFromID (pfx id : Str) : Str := addJobsSuffix (pfx ++ id)

/-- `(g *remoteMongoQueueGroup) idFromCollection`. -/
def idFromCollection (pfx coll : Str) : Str := trimJobsSuffix (trimPrefixStr coll pfx)

/-- One job document, restricted to the `status` fields the manager
queries. -/
structure Doc where
  completed : Bool
  inProg : Bool
  modTs : Int
  deriving DecidableEq

/-- One backing collection of the external store.  `countFails` models
a store I/O failure: when set, `CountDocuments` on this collection
returns an error. -/
structure Coll where
  name : Str
  docs : List Doc
  countFails : Bool
  deriving DecidableEq

/-- The store's collection lookup (`client.Database(db).Collection(name)`),
by name. -/
def findColl (store : List Coll) (name : Str) : Option Coll :=
  match store with
  | [] => none
  | c :: rest => if c.name = name then some c else findColl rest name

/-- `CountDocuments` with the filter
`{status.completed: true, status.in_prog: false, status.mod_ts: {$gte: now - ttl}}`.
A missing collection counts zero documents. -/
def countRecentCompleted (c : Option Coll) (now ttl : Int) : Except Unit Nat :=
  match c with
  | none => .ok 0
  | some c =>
    if c.countFails then .error () else
      .ok ((c.docs.filter (fun d => d.completed && !d.inProg && decide (now - ttl ≤ d.modTs))).length)

/-- `CountDocuments` with the filter `{status.completed: false}`. -/
def countPending (c : Option Coll) : Except Unit Nat :=
  match c with
  | none => .ok 0
  | some c =>
    if c.countFails then .error () else
      .ok ((c.docs.filter (fun d => !d.completed)).length)

/-- The manager state (`remoteMongoQueueGroup`): the namespace, the
TTL, and the two registry maps.  The client handle, canceler and Prune
frequency are lifecycle plumbing with no registry content and are
carried as explicit arguments where needed. -/
structure QueueGroup where
  pfx : Str
  ttl : Int
  queues : List (Str × Nat)
  ttlMap : List (Str × Int)
  deriving DecidableEq

/-- `getExistingCollections`: list the store's collection names
matching `^prefix.*`. -/
def getExistingCollections (pfx : Str) (store : List Coll) : List Str :=
  (store.filter (fun c => pfx.isPrefixOf c.name)).map Coll.name

/-- Outcomes of the external collaborators invoked by
`startProcessingRemoteQueue`: the client-supplied constructor,
`OpenNewMongoDriver` (a function of the collection name it is bound
to), `SetDriver` and `Start`. -/
structure Env where
  ctorQueue : Except Str Nat
  openDriver : Str → Except Str Unit
  setDriver : Except Str Unit
  startQueue : Except Str Unit

/-- `errors.Wrap(err, msg)`. -/
def wrapErr (msg e : Str) : Str := msg ++ ": ".toList ++ e

/-- `(g *remoteMongoQueueGroup) startProcessingRemoteQueue`: trim the
jobs suffix, run the constructor, open the driver on the trimmed
collection name, set it, start the queue; fail (wrapped) at the first
error. -/
def startProcessingRemoteQueue (env : Env) (coll : Str) : Except Str Nat :=
  let coll := trimJobsSuffix coll
  match env.ctorQueue with
  | .error e => .error (wrapErr "problem starting queue".toList e)
  | .ok q =>
    match env.openDriver coll with
    | .error e => .error (wrapErr "problem opening driver".toList e)
    | .ok _ =>
      match env.setDriver with
      | .error e => .error (wrapErr "problem setting driver".toList e)
      | .ok _ =>
        match env.startQueue with
        | .error e => .error (wrapErr "problem starting queue".toList e)
        | .ok _ => .ok q

/-- `(g *remoteMongoQueueGroup) Get`: return the cached handle and
stamp `ttlMap[id] = now`, or construct, register and return a new
queue.  Returns the result together with the state of the receiver
after the call (the double-checked re-lookup collapses in this
sequential model). -/
def Get (g : QueueGroup) (env : Env) (now : Int) (id : Str) :
    Except Str Nat × QueueGroup :=
  match lookupA g.queues id with
  | some q => (.ok q, { g with ttlMap := insertA g.ttlMap id now })
  | none =>
    match startProcessingRemoteQueue env (collectionFromID g.pfx id) with
    | .error e => (.error (wrapErr "problem starting queue".toList e), g)
    | .ok q =>
      (.ok q, { g with queues := insertA g.queues id q, ttlMap := insertA g.ttlMap id now })

/-- `(g *remoteMongoQueueGroup) Put`: register a caller-supplied
queue, failing if the id is taken.  Returns the state after the call
and the error, if any. -/
def Put (g : QueueGroup) (now : Int) (id : Str) (q : Nat) :
    QueueGroup × Option Str :=
  match lookupA g.queues id with
  | some _ => (g, some "a queue already exists at this index".toList)
  | none =>
    ({ g with queues := insertA g.queues id q, ttlMap := insertA g.ttlMap id now }, none)

/-- Accumulator of the pruning worker pool: the store as drops are
applied, the candidates actually taken from the channel, the `Drop`ed
collections, the ids whose `Runner().Close` ran, the ids sent to
`collsDeleteChan`, and the catcher's error count. -/
structure WorkAcc where
  store : List Coll
  examined : List Str
  dropped : List Str
  closed : List Str
  deleteIds : List Str
  errs : Nat
  deriving DecidableEq

/-- The body of one pruning worker iteration (the `for nextColl :=
range collsDropChan` body): count recently-completed and pending
documents, and when both are zero close the live handle (if any),
record its id for deletion, and drop the collection.  The returned
flag is `true` when the body executed `return`, killing the worker:
on a count error (after adding it to the catcher) and on a nonzero
count. -/
def pruneCheckColl (g : QueueGroup) (now : Int) (acc : WorkAcc) (coll : Str) :
    WorkAcc × Bool :=
  let acc := { acc with examined := acc.examined ++ [coll] }
  let c := findColl acc.store coll
  match countRecentCompleted c now g.ttl with
  | .error _ => ({ acc with errs := acc.errs + 1 }, true)
  | .ok n1 =>
    if 0 < n1 then (acc, true)
    else
      match countPending c with
      | .error _ => ({ acc with errs := acc.errs + 1 }, true)
      | .ok n2 =>
        if 0 < n2 then (acc, true)
        else
          let id := idFromCollection g.pfx coll
          let acc :=
            if (lookupA g.queues id).isSome then
              { acc with closed := acc.closed ++ [id], deleteIds := acc.deleteIds ++ [id] }
            else acc
          ({ acc with
              store := acc.store.filter (fun c' => c'.name ≠ coll),
              dropped := acc.dropped ++ [coll] }, false)

/-- The worker pool of `Prune`: `alive` workers consume the channel
items in order; a worker that `return`s dies, and once no worker is
alive the remaining items are never taken. -/
def runWorkers (g : QueueGroup) (now : Int) (alive : Nat) :
    List Str → WorkAcc → WorkAcc
  | [], acc => acc
  | coll :: rest, acc =>
    if alive = 0 then acc
    else
      let step := pruneCheckColl g now acc coll
      runWorkers g now (if step.2 then alive - 1 else alive) rest step.1

/-- The observable outcome of one `Prune` call. -/
structure PruneResult where
  group : QueueGroup
  store : List Coll
  examined : List Str
  dropped : List Str
  closed : List Str
  errs : Nat
  deriving DecidableEq

/-- `(g *remoteMongoQueueGroup) Prune`: list the collections under the
prefix; keep as candidates those with no `ttlMap` entry or one older
than the TTL; run the worker pool over the candidates; delete the
reclaimed ids from both maps; then (second pass) close and delete
every remaining registered id that matches no checked candidate.
`closed` records every id whose `Runner().Close` was invoked, in
order. -/
def Prune (g : QueueGroup) (store : List Coll) (now : Int) (numCPU : Nat) :
    PruneResult :=
  let colls := getExistingCollections g.pfx store
  let collsToCheck := colls.filter (fun coll =>
    match lookupA g.ttlMap (idFromCollection g.pfx coll) with
    | none => true
    | some t => decide (g.ttl < now - t))
  let acc := runWorkers g now numCPU collsToCheck
    ⟨store, [], [], [], [], 0⟩
  let queues1 := eraseAllA g.queues acc.deleteIds
  let ttl1 := eraseAllA g.ttlMap acc.deleteIds
  let checkedIds := collsToCheck.map (idFromCollection g.pfx)
  let evictIds := (queues1.filter (fun p => !(checkedIds.contains p.1))).map Prod.fst
  let queues2 := eraseAllA queues1 evictIds
  let ttl2 := eraseAllA ttl1 evictIds
  { group := { g with queues := queues2, ttlMap := ttl2 }
    store := acc.store
    examined := acc.examined
    dropped := acc.dropped
    closed := acc.closed ++ evictIds
    errs := acc.errs }

/-- `MongoDBOptions`, restricted to the fields the constructor
validates. -/
structure MongoDBOptions where
  db : Str
  uri : Str

/-- `RemoteQueueGroupOptions`.  `hasConstructor` is modelled from the
spec: `opts.validate()` is not among the provided sources, and the
spec says validation requires a non-null constructor callback. -/
structure RemoteQueueGroupOptions where
  hasConstructor : Bool
  pfx : Str
  pruneFrequency : Int
  ttl : Int

/-- Modelled from the spec: `opts.validate()` (missing from the
provided sources) succeeds exactly when the constructor callback is
present. -/
def validateOpts (opts : RemoteQueueGroupOptions) : Bool := opts.hasConstructor

/-- The errors `NewMongoRemoteQueueGroup` can return.
`startFailures` carries the catcher's accumulated list, here the
collections whose queue failed to start. -/
inductive GroupErr where
  | invalidOpts : GroupErr
  | noDB : GroupErr
  | noURI : GroupErr
  | pruneFailed : GroupErr
  | startFailures : List Str → GroupErr
  deriving DecidableEq

/-- The configuration errors of the spec's taxonomy: missing
constructor, empty database identity, empty address. -/
def GroupErr.isConfig : GroupErr → Bool
  | .invalidOpts => true
  | .noDB => true
  | .noURI => true
  | _ => false

/-- The discovery loop of construction: start a queue per discovered
collection, registering successes in both maps and accumulating the
failures in the catcher (modelled as the failing collection list). -/
def buildQueues (pfx : Str) (env : Str → Except Str Nat) (now : Int) :
    List Str → List (Str × Nat) → List (Str × Int) → List Str →
    List (Str × Nat) × List (Str × Int) × List Str
  | [], qs, tm, fails => (qs, tm, fails)
  | coll :: rest, qs, tm, fails =>
    match env coll with
    | .error _ => buildQueues pfx env now rest qs tm (fails ++ [coll])
    | .ok q =>
      buildQueues pfx env now rest
        (insertA qs (idFromCollection pfx coll) q)
        (insertA tm (idFromCollection pfx coll) now) fails

/-- The synchronous Prune of construction, run only when both the
Prune frequency and the TTL are positive; yields the store it leaves
behind and whether it failed. -/
def pruneAtConstruction (opts : RemoteQueueGroupOptions) (store : List Coll)
    (now : Int) (numCPU : Nat) : List Coll × Bool :=
  if 0 < opts.pruneFrequency ∧ 0 < opts.ttl then
    let r := Prune ⟨opts.pfx, opts.ttl, [], []⟩ store now numCPU
    (r.store, decide (0 < r.errs))
  else (store, false)

/-- The observable outcome of `NewMongoRemoteQueueGroup`: the result,
the store after construction, and whether the constructor's own store
activity (the synchronous Prune, the discovery scan) happened. -/
structure NewGroupOut where
  result : Except GroupErr QueueGroup
  store : List Coll
  didPrune : Bool
  didList : Bool

/-- `NewMongoRemoteQueueGroup`: validate the options, reject an empty
database name or URI, optionally Prune, discover the existing
collections and start a queue for each, failing with the aggregated
errors if any start failed.  `env coll` is the outcome of
`startProcessingRemoteQueue` for the discovered collection `coll`. -/
def NewMongoRemoteQueueGroup (opts : RemoteQueueGroupOptions)
    (mdbopts : MongoDBOptions) (store : List Coll) (now : Int) (numCPU : Nat)
    (env : Str → Except Str Nat) : NewGroupOut :=
  if validateOpts opts = false then ⟨.error .invalidOpts, store, false, false⟩
  else if mdbopts.db = [] then ⟨.error .noDB, store, false, false⟩
  else if mdbopts.uri = [] then ⟨.error .noURI, store, false, false⟩
  else
    let pr := pruneAtConstruction opts store now numCPU
    let doPrune := decide (0 < opts.pruneFrequency ∧ 0 < opts.ttl)
    if pr.2 then ⟨.error .pruneFailed, pr.1, doPrune, false⟩
    else
      let colls := getExistingCollections opts.pfx pr.1
      let r := buildQueues opts.pfx env now colls [] [] []
      if r.2.2.isEmpty then
        ⟨.ok ⟨opts.pfx, opts.ttl, r.1, r.2.1⟩, pr.1, doPrune, true⟩
      else ⟨.error (.startFailures r.2.2), pr.1, doPrune, true⟩

/-- The two registry maps cover the same ids, in the same order. -/
abbrev sameKeys (g : QueueGroup) : Prop :=
  g.queues.map Prod.fst = g.ttlMap.map Prod.fst

deriving instance DecidableEq for Except

/-- Whether an `Except` value is an error (whether the Go call returned
a non-nil error). -/
def exceptIsError {ε α : Type} : Except ε α → Bool
  | .error _ => true
  | .ok _ => false

/- Concrete states used to exercise the theorems.  Each constant is
used by a single claim's theorem or witness. -/

/-- A manager holding `alpha`, registered and last accessed at instant
1000 (younger than the TTL at instant 1000). -/
def freshGroupEx : QueueGroup :=
  ⟨"svc.".toList, 3600, [("alpha".toList, 1)], [("alpha".toList, 1000)]⟩

/-- A store still holding `alpha`'s (empty) backing collection. -/
def freshStoreEx : List Coll := [⟨"svc.alpha.jobs".toList, [], false⟩]

/-- A manager with an empty registry and TTL 10. -/
def idleGroupEx : QueueGroup := ⟨"p.".toList, 10, [], []⟩

/-- A store with one empty, never-touched collection under the
prefix. -/
def idleStoreEx : List Coll := [⟨"p.a.jobs".toList, [], false⟩]

/-- A manager with an empty registry, for the count-failure run. -/
def failGroupEx : QueueGroup := ⟨"p.".toList, 10, [], []⟩

/-- A store whose first candidate fails its counts and whose second is
empty and droppable. -/
def failStoreEx : List Coll :=
  [⟨"p.a.jobs".toList, [], true⟩, ⟨"p.b.jobs".toList, [], false⟩]

/-- A one-entry manager for the `Put` conflict witness. -/
def putGroupEx : QueueGroup :=
  ⟨"p.".toList, 10, [("a".toList, 1)], [("a".toList, 0)]⟩

/-- A collaborator environment in which every call succeeds and the
constructor yields queue handle 7. -/
def getEnvEx : Env := ⟨.ok 7, fun _ => .ok (), .ok (), .ok ()⟩

/-- An empty manager for the `Get` witness. -/
def getGroupEx : QueueGroup := ⟨"p.".toList, 10, [], []⟩

/-- A collaborator environment whose constructor fails. -/
def getFailEnvEx : Env := ⟨.error "boom".toList, fun _ => .ok (), .ok (), .ok ()⟩

/-- An empty manager for the failing-`Get` witness. -/
def getFailGroupEx : QueueGroup := ⟨"q.".toList, 20, [], []⟩

/-- Options with a constructor, prefix `p.` and pruning disabled. -/
def ctorOptsEx : RemoteQueueGroupOptions := ⟨true, "p.".toList, 0, 0⟩

/-- Non-empty database identity and address. -/
def ctorMdbEx : MongoDBOptions := ⟨"db".toList, "uri".toList⟩

/-- A store with two discoverable collections. -/
def ctorStoreEx : List Coll :=
  [⟨"p.a.jobs".toList, [], false⟩, ⟨"p.b.jobs".toList, [], false⟩]

/-- A per-collection start outcome that always fails. -/
def ctorEnvEx : Str → Except Str Nat := fun _ => .error "no broker".toList

/-- Options for the configuration-error witness. -/
def cfgOptsEx : RemoteQueueGroupOptions := ⟨true, "p.".toList, 5, 5⟩

/-- An empty database identity. -/
def cfgMdbEx : MongoDBOptions := ⟨[], "uri".toList⟩

/-- A store for the configuration-error witness; it must stay
untouched. -/
def cfgStoreEx : List Coll := [⟨"q.x.jobs".toList, [], false⟩]

/-- A one-entry manager with matching maps for the invariant
witness. -/
def skGroupEx : QueueGroup :=
  ⟨"p.".toList, 10, [("a".toList, 1)], [("a".toList, 0)]⟩

/-! ## Helper lemmas -/

theorem isPrefixOf_append_self (p t : Str) : p.isPrefixOf (p ++ t) = true := by
  induction p with
  | nil => simp [List.isPrefixOf]
  | cons a as ih => simp [List.isPrefixOf, ih]

theorem isSuffixOf_append_self (s t : Str) : s.isSuffixOf (t ++ s) = true := by
  unfold List.isSuffixOf
  rw [List.reverse_append]
  exact isPrefixOf_append_self s.reverse t.reverse

theorem trimSuffixStr_append (s t : Str) : trimSuffixStr (t ++ s) s = t := by
  unfold trimSuffixStr
  rw [isSuffixOf_append_self]
  simp [List.take_left]

theorem trimPrefixStr_append (p t : Str) : trimPrefixStr (p ++ t) p = t := by
  unfold trimPrefixStr
  rw [isPrefixOf_append_self]
  simp [List.drop_left]

theorem lookupA_mem_keys {α : Type} (l : List (Str × α)) (k : Str) (v : α)
    (h : lookupA l k = some v) : k ∈ l.map Prod.fst := by
  induction l with
  | nil => simp [lookupA] at h
  | cons p rest ih =>
    simp only [lookupA] at h
    by_cases hk : p.1 = k
    · simp only [List.map_cons, List.mem_cons]
      exact Or.inl hk.symm
    · rw [if_neg hk] at h
      simp only [List.map_cons, List.mem_cons]
      exact Or.inr (ih h)

theorem insertA_keys_mem {α : Type} (l : List (Str × α)) (k : Str) (v : α)
    (h : k ∈ l.map Prod.fst) : (insertA l k v).map Prod.fst = l.map Prod.fst := by
  induction l with
  | nil => simp at h
  | cons p rest ih =>
    simp only [insertA]
    by_cases hk : p.1 = k
    · rw [if_pos hk]
      simp [hk]
    · rw [if_neg hk]
      simp only [List.map_cons] at h ⊢
      rcases List.mem_cons.mp h with h1 | h2
      · exact absurd h1.symm hk
      · rw [ih h2]

theorem insertA_keys_congr {α β : Type} (k : Str) (v : α) (w : β) :
    ∀ (as : List (Str × α)) (bs : List (Str × β)),
    as.map Prod.fst = bs.map Prod.fst →
    (insertA as k v).map Prod.fst = (insertA bs k w).map Prod.fst := by
  intro as
  induction as with
  | nil =>
    intro bs h
    have hb : bs = [] := by
      cases bs with
      | nil => rfl
      | cons b bs' => simp at h
    subst hb
    simp [insertA]
  | cons a as' ih =>
    intro bs h
    cases bs with
    | nil => simp at h
    | cons b bs' =>
      simp only [List.map_cons, List.cons.injEq] at h
      obtain ⟨h1, h2⟩ := h
      simp only [insertA]
      by_cases hk : a.1 = k
      · rw [if_pos hk, if_pos (h1 ▸ hk)]
        simp [h2]
      · rw [if_neg hk, if_neg (h1 ▸ hk)]
        simp only [List.map_cons, h1, ih bs' h2]

theorem eraseA_keys {α : Type} (l : List (Str × α)) (k : Str) :
    (eraseA l k).map Prod.fst = (l.map Prod.fst).filter (fun x => x ≠ k) := by
  induction l with
  | nil => simp [eraseA]
  | cons p rest ih =>
    simp only [eraseA, List.filter_cons, List.map_cons, decide_not] at ih ⊢
    by_cases hk : p.1 = k <;> simp [hk, ih]

theorem eraseAllA_keys_congr {α β : Type} :
    ∀ (ks : List Str) (as : List (Str × α)) (bs : List (Str × β)),
    as.map Prod.fst = bs.map Prod.fst →
    (eraseAllA as ks).map Prod.fst = (eraseAllA bs ks).map Prod.fst := by
  intro ks
  induction ks with
  | nil => intro as bs h; simpa [eraseAllA] using h
  | cons k ks' ih =>
    intro as bs h
    have hstep : (eraseA as k).map Prod.fst = (eraseA bs k).map Prod.fst := by
      rw [eraseA_keys, eraseA_keys, h]
    simpa [eraseAllA, List.foldl] using ih (eraseA as k) (eraseA bs k) hstep

theorem buildQueues_keys_eq (pfx : Str) (env : Str → Except Str Nat) (now : Int) :
    ∀ (colls : List Str) (qs : List (Str × Nat)) (tm : List (Str × Int)) (fails : List Str),
    qs.map Prod.fst = tm.map Prod.fst →
    (buildQueues pfx env now colls qs tm fails).1.map Prod.fst =
      (buildQueues pfx env now colls qs tm fails).2.1.map Prod.fst := by
  intro colls
  induction colls with
  | nil => intro qs tm fails h; simpa [buildQueues] using h
  | cons coll rest ih =>
    intro qs tm fails h
    simp only [buildQueues]
    cases env coll with
    | error e => exact ih qs tm (fails ++ [coll]) h
    | ok q =>
      exact ih _ _ fails
        (insertA_keys_congr (idFromCollection pfx coll) q now qs tm h)

theorem pruneCheckColl_examined (g : QueueGroup) (now : Int) (acc : WorkAcc) (coll : Str) :
    (pruneCheckColl g now acc coll).1.examined = acc.examined ++ [coll] := by
  simp only [pruneCheckColl]
  cases h1 : countRecentCompleted (findColl acc.store coll) now g.ttl with
  | error e => rfl
  | ok n1 =>
    by_cases hn1 : 0 < n1
    · simp [hn1]
    · simp only [if_neg hn1]
      cases h2 : countPending (findColl acc.store coll) with
      | error e => rfl
      | ok n2 =>
        by_cases hn2 : 0 < n2
        · simp [hn2]
        · simp only [if_neg hn2]
          by_cases hq : (lookupA g.queues (idFromCollection g.pfx coll)).isSome <;>
            simp [hq]

theorem findColl_filter_ne (l : List Coll) (x y : Str) (h : x ≠ y) :
    findColl (l.filter (fun c => c.name ≠ y)) x = findColl l x := by
  induction l with
  | nil => rfl
  | cons c rest ih =>
    by_cases hc : c.name = y
    · have hcx : ¬c.name = x := by rw [hc]; exact fun he => h he.symm
      simp only [List.filter_cons, hc]
      simp only [findColl, if_neg hcx]
      simpa using ih
    · simp only [List.filter_cons]
      have : (decide (c.name ≠ y)) = true := by simp [hc]
      rw [this]
      simp only [findColl]
      by_cases hcx : c.name = x
      · simp [hcx]
      · simp only [if_neg hcx]
        exact ih

theorem pruneCheckColl_idle (g : QueueGroup) (now : Int) (acc : WorkAcc) (coll : Str)
    (h1 : countRecentCompleted (findColl acc.store coll) now g.ttl = .ok 0)
    (h2 : countPending (findColl acc.store coll) = .ok 0) :
    (pruneCheckColl g now acc coll).1.dropped = acc.dropped ++ [coll] ∧
    (pruneCheckColl g now acc coll).1.store = acc.store.filter (fun c' => c'.name ≠ coll) := by
  simp only [pruneCheckColl, h1, h2]
  by_cases hq : (lookupA g.queues (idFromCollection g.pfx coll)).isSome <;> simp [hq]

theorem pruneCheckColl_not_idle (g : QueueGroup) (now : Int) (acc : WorkAcc) (coll : Str)
    (h : ¬(countRecentCompleted (findColl acc.store coll) now g.ttl = .ok 0 ∧
          countPending (findColl acc.store coll) = .ok 0)) :
    (pruneCheckColl g now acc coll).1.dropped = acc.dropped ∧
    (pruneCheckColl g now acc coll).1.store = acc.store := by
  simp only [pruneCheckColl]
  cases h1 : countRecentCompleted (findColl acc.store coll) now g.ttl with
  | error e => exact ⟨rfl, rfl⟩
  | ok n1 =>
    by_cases hn1 : 0 < n1
    · simp [hn1]
    · simp only [if_neg hn1]
      have hn1z : n1 = 0 := Nat.eq_zero_of_not_pos hn1
      cases h2 : countPending (findColl acc.store coll) with
      | error e => exact ⟨rfl, rfl⟩
      | ok n2 =>
        by_cases hn2 : 0 < n2
        · simp [hn2]
        · have hn2z : n2 = 0 := Nat.eq_zero_of_not_pos hn2
          exact absurd ⟨hn1z ▸ h1, hn2z ▸ h2⟩ h

theorem pruneCheckColl_store_frame (g : QueueGroup) (now : Int) (acc : WorkAcc)
    (coll x : Str) (hx : x ≠ coll) :
    findColl (pruneCheckColl g now acc coll).1.store x = findColl acc.store x := by
  by_cases h : countRecentCompleted (findColl acc.store coll) now g.ttl = .ok 0 ∧
      countPending (findColl acc.store coll) = .ok 0
  · rw [(pruneCheckColl_idle g now acc coll h.1 h.2).2]
    exact findColl_filter_ne acc.store x coll hx
  · rw [(pruneCheckColl_not_idle g now acc coll h).2]

theorem runWorkers_dropped_frame (g : QueueGroup) (now : Int) :
    ∀ (colls : List Str) (alive : Nat) (acc : WorkAcc) (x : Str), x ∉ colls →
    (x ∈ (runWorkers g now alive colls acc).dropped ↔ x ∈ acc.dropped) := by
  intro colls
  induction colls with
  | nil => intro alive acc x _; simp [runWorkers]
  | cons coll rest ih =>
    intro alive acc x hx
    have hx1 : x ≠ coll := fun h => hx (h ▸ List.mem_cons_self coll rest)
    have hx2 : x ∉ rest := fun h => hx (List.mem_cons_of_mem coll h)
    simp only [runWorkers]
    by_cases ha : alive = 0
    · simp [ha]
    · rw [if_neg ha]
      rw [ih _ _ x hx2]
      by_cases h : countRecentCompleted (findColl acc.store coll) now g.ttl = .ok 0 ∧
          countPending (findColl acc.store coll) = .ok 0
      · rw [(pruneCheckColl_idle g now acc coll h.1 h.2).1]
        simp [hx1]
      · rw [(pruneCheckColl_not_idle g now acc coll h).1]

theorem runWorkers_examined_mono (g : QueueGroup) (now : Int) :
    ∀ (colls : List Str) (alive : Nat) (acc : WorkAcc) (x : Str), x ∈ acc.examined →
    x ∈ (runWorkers g now alive colls acc).examined := by
  intro colls
  induction colls with
  | nil => intro alive acc x hx; simpa [runWorkers] using hx
  | cons coll rest ih =>
    intro alive acc x hx
    simp only [runWorkers]
    by_cases ha : alive = 0
    · simpa [ha] using hx
    · rw [if_neg ha]
      refine ih _ _ x ?_
      rw [pruneCheckColl_examined]
      exact List.mem_append_left _ hx

theorem runWorkers_examined_sub (g : QueueGroup) (now : Int) :
    ∀ (colls : List Str) (alive : Nat) (acc : WorkAcc) (x : Str),
    x ∈ (runWorkers g now alive colls acc).examined →
    x ∈ acc.examined ∨ x ∈ colls := by
  intro colls
  induction colls with
  | nil => intro alive acc x hx; exact Or.inl (by simpa [runWorkers] using hx)
  | cons coll rest ih =>
    intro alive acc x hx
    simp only [runWorkers] at hx
    by_cases ha : alive = 0
    · rw [if_pos ha] at hx
      exact Or.inl hx
    · rw [if_neg ha] at hx
      rcases ih _ _ x hx with h | h
      · rw [pruneCheckColl_examined] at h
        rcases List.mem_append.mp h with h' | h'
        · exact Or.inl h'
        · exact Or.inr (by rw [List.mem_singleton.mp h']; exact List.mem_cons_self coll rest)
      · exact Or.inr (List.mem_cons_of_mem coll h)

theorem runWorkers_dropped_iff (g : QueueGroup) (now : Int) :
    ∀ (colls : List Str) (alive : Nat) (acc : WorkAcc) (x : Str),
    colls.Nodup → x ∈ colls → x ∉ acc.examined → x ∉ acc.dropped →
    x ∈ (runWorkers g now alive colls acc).examined →
    (x ∈ (runWorkers g now alive colls acc).dropped ↔
      countRecentCompleted (findColl acc.store x) now g.ttl = .ok 0 ∧
      countPending (findColl acc.store x) = .ok 0) := by
  intro colls
  induction colls with
  | nil => intro alive acc x _ hx; simp at hx
  | cons coll rest ih =>
    intro alive acc x hnd hx hxe hxd hfin
    simp only [runWorkers] at hfin ⊢
    by_cases ha : alive = 0
    · rw [if_pos ha] at hfin
      exact absurd hfin hxe
    · rw [if_neg ha] at hfin ⊢
      by_cases hxc : x = coll
      · subst hxc
        have hxr : x ∉ rest := (List.nodup_cons.mp hnd).1
        rw [runWorkers_dropped_frame g now rest _ _ x hxr]
        by_cases h : countRecentCompleted (findColl acc.store x) now g.ttl = .ok 0 ∧
            countPending (findColl acc.store x) = .ok 0
        · rw [(pruneCheckColl_idle g now acc x h.1 h.2).1]
          simp [h]
        · rw [(pruneCheckColl_not_idle g now acc x h).1]
          simp [h, hxd]
      · have hxr : x ∈ rest := by
          rcases List.mem_cons.mp hx with h | h
          · exact absurd h hxc
          · exact h
        have hxe' : x ∉ (pruneCheckColl g now acc coll).1.examined := by
          rw [pruneCheckColl_examined]
          intro h
          rcases List.mem_append.mp h with h' | h'
          · exact hxe h'
          · exact hxc (List.mem_singleton.mp h')
        have hxd' : x ∉ (pruneCheckColl g now acc coll).1.dropped := by
          by_cases h : countRecentCompleted (findColl acc.store coll) now g.ttl = .ok 0 ∧
              countPending (findColl acc.store coll) = .ok 0
          · rw [(pruneCheckColl_idle g now acc coll h.1 h.2).1]
            intro hmem
            rcases List.mem_append.mp hmem with h' | h'
            · exact hxd h'
            · exact hxc (List.mem_singleton.mp h')
          · rw [(pruneCheckColl_not_idle g now acc coll h).1]
            exact hxd
        have hfr := pruneCheckColl_store_frame g now acc coll x hxc
        rw [← hfr]
        exact ih _ _ x (List.nodup_cons.mp hnd).2 hxr hxe' hxd' hfin

theorem countPending_ne_zero (c : Coll) (d : Doc) (hd : d ∈ c.docs)
    (hdc : d.completed = false) : countPending (some c) ≠ .ok 0 := by
  unfold countPending
  by_cases hf : c.countFails
  · simp [hf]
  · simp only [if_neg hf]
    intro h
    have hlen : (c.docs.filter (fun d => !d.completed)).length = 0 := by
      simpa using h
    have hdm : d ∈ c.docs.filter (fun d => !d.completed) :=
      List.mem_filter.mpr ⟨hd, by simp [hdc]⟩
    rw [List.length_eq_zero] at hlen
    rw [hlen] at hdm
    simp at hdm

theorem countRecentCompleted_ne_zero (c : Coll) (now ttl : Int) (d : Doc)
    (hd : d ∈ c.docs) (h1 : d.completed = true) (h2 : d.inProg = false)
    (h3 : now - ttl ≤ d.modTs) : countRecentCompleted (some c) now ttl ≠ .ok 0 := by
  unfold countRecentCompleted
  by_cases hf : c.countFails
  · simp [hf]
  · simp only [if_neg hf]
    intro h
    have hlen :
        (c.docs.filter (fun d => d.completed && !d.inProg && decide (now - ttl ≤ d.modTs))).length = 0 := by
      simpa using h
    have hdm : d ∈ c.docs.filter
        (fun d => d.completed && !d.inProg && decide (now - ttl ≤ d.modTs)) :=
      List.mem_filter.mpr ⟨hd, by simp [h1, h2, h3]⟩
    rw [List.length_eq_zero] at hlen
    rw [hlen] at hdm
    simp at hdm

/-- C2: a candidate examined by `Prune` has its backing collection
dropped exactly when both counts return zero: the recently-completed
count and the pending count.  Consequently an examined candidate with
a pending document or a recently-completed document is never dropped,
and an examined empty collection (no documents, counts succeeding) is
dropped. -/
theorem prune_drops_iff_idle (g : QueueGroup) (store : List Coll) (now : Int)
    (numCPU : Nat) (coll : Str) (hnd : (store.map Coll.name).Nodup)
    (hex : coll ∈ (Prune g store now numCPU).examined) :
    (coll ∈ (Prune g store now numCPU).dropped ↔
      countRecentCompleted (findColl store coll) now g.ttl = .ok 0 ∧
      countPending (findColl store coll) = .ok 0) ∧
    ∀ c, findColl store coll = some c →
      ((∃ d ∈ c.docs, d.completed = false) →
        coll ∉ (Prune g store now numCPU).dropped) ∧
      ((∃ d ∈ c.docs, d.completed = true ∧ d.inProg = false ∧ now - g.ttl ≤ d.modTs) →
        coll ∉ (Prune g store now numCPU).dropped) ∧
      (c.docs = [] → c.countFails = false →
        coll ∈ (Prune g store now numCPU).dropped) := by
  have hcolls : (getExistingCollections g.pfx store).Nodup :=
    hnd.sublist ((List.filter_sublist store).map Coll.name)
  simp only [Prune] at hex ⊢
  have hmem : coll ∈ (getExistingCollections g.pfx store).filter
      (fun coll => match lookupA g.ttlMap (idFromCollection g.pfx coll) with
        | none => true
        | some t => decide (g.ttl < now - t)) := by
    rcases runWorkers_examined_sub g now _ numCPU _ coll hex with h | h
    · simp at h
    · exact h
  have hiff := runWorkers_dropped_iff g now _ numCPU ⟨store, [], [], [], [], 0⟩ coll
    (hcolls.sublist (List.filter_sublist _)) hmem (by simp) (by simp) hex
  refine ⟨hiff, ?_⟩
  intro c hc
  refine ⟨?_, ?_, ?_⟩
  · rintro ⟨d, hd, hdc⟩ hmem'
    have := (hiff.mp hmem').2
    rw [hc] at this
    exact countPending_ne_zero c d hd hdc this
  · rintro ⟨d, hd, hd1, hd2, hd3⟩ hmem'
    have := (hiff.mp hmem').1
    rw [hc] at this
    exact countRecentCompleted_ne_zero c now g.ttl d hd hd1 hd2 hd3 this
  · intro hdocs hfails
    refine hiff.mpr ⟨?_, ?_⟩
    · rw [hc]
      simp [countRecentCompleted, hfails, hdocs]
    · rw [hc]
      simp [countPending, hfails, hdocs]

theorem prune_drops_iff_idle_witness :
    "p.a.jobs".toList ∈ (Prune idleGroupEx idleStoreEx 100 1).dropped :=
  ((prune_drops_iff_idle idleGroupEx idleStoreEx 100 1 "p.a.jobs".toList
      (by decide) (by decide)).2 ⟨"p.a.jobs".toList, [], false⟩ (by decide)).2.2 rfl rfl

theorem buildQueues_fails (pfx : Str) (env : Str → Except Str Nat) (now : Int) :
    ∀ (colls : List Str) (qs : List (Str × Nat)) (tm : List (Str × Int)) (fails : List Str),
    (buildQueues pfx env now colls qs tm fails).2.2 =
      fails ++ colls.filter (fun c => exceptIsError (env c)) := by
  intro colls
  induction colls with
  | nil => intro qs tm fails; simp [buildQueues]
  | cons coll rest ih =>
    intro qs tm fails
    simp only [buildQueues]
    cases h : env coll with
    | error e =>
      rw [ih]
      simp [List.filter_cons, exceptIsError, h]
    | ok q =>
      rw [ih]
      simp [List.filter_cons, exceptIsError, h]

/-- C8: recovering the logical id from a backing collection name
round-trips: `idFromCollection` applied to `collectionFromID` yields
the original id, for every prefix and every id. -/
theorem idFromCollection_collectionFromID (pfx id : Str) :
    idFromCollection pfx (collectionFromID pfx id) = id := by
  unfold idFromCollection collectionFromID addJobsSuffix trimJobsSuffix trimPrefixStr
  rw [List.append_assoc]
  simp only [isPrefixOf_append_self, if_true]
  rw [List.drop_left]
  exact trimSuffixStr_append jobsSuffix id

/-- C1 (evaluation at the failing input): with prefix `svc.`, TTL
3600, id `alpha` registered with a last access of age zero, and its
backing collection `svc.alpha.jobs` still in the store, a single
`Prune` pass closes alpha's Runner and deletes it from both maps —
the second pass evicts every registered id that matches no checked
candidate, and a recently-touched id is never a checked candidate —
while the collection itself survives. -/
theorem prune_second_pass_evicts_fresh_id :
    (Prune freshGroupEx freshStoreEx 1000 4).group.queues = [] ∧
    (Prune freshGroupEx freshStoreEx 1000 4).group.ttlMap = [] ∧
    "alpha".toList ∈ (Prune freshGroupEx freshStoreEx 1000 4).closed ∧
    (Prune freshGroupEx freshStoreEx 1000 4).dropped = [] ∧
    findColl (Prune freshGroupEx freshStoreEx 1000 4).store "svc.alpha.jobs".toList ≠
      none := by
  decide

/-- C3 (evaluation at the failing input): with a single worker
(`runtime.NumCPU() = 1`) and two candidates, a count failure on the
first makes the worker body `return`, so the second candidate — empty
and idle — is never examined and never dropped; the collected error is
still returned. -/
theorem prune_count_error_skips_rest :
    (Prune failGroupEx failStoreEx 100 1).errs = 1 ∧
    (Prune failGroupEx failStoreEx 100 1).examined = ["p.a.jobs".toList] ∧
    (Prune failGroupEx failStoreEx 100 1).dropped = [] ∧
    findColl (Prune failGroupEx failStoreEx 100 1).store "p.b.jobs".toList =
      some ⟨"p.b.jobs".toList, [], false⟩ := by
  decide

/-- C4: `Put` on an id already present returns the "already exists"
conflict error and leaves the manager unchanged (handle not replaced,
timestamp not stamped); on an absent id it stores the handle and
stamps `lastAccess[id] = now`. -/
theorem put_conflict_spec (g : QueueGroup) (now : Int) (id : Str) (q : Nat) :
    ((lookupA g.queues id).isSome →
      Put g now id q = (g, some "a queue already exists at this index".toList)) ∧
    (lookupA g.queues id = none →
      Put g now id q =
        ({ g with queues := insertA g.queues id q,
                  ttlMap := insertA g.ttlMap id now }, none)) := by
  constructor
  · intro h
    rcases Option.isSome_iff_exists.mp h with ⟨v, hv⟩
    simp [Put, hv]
  · intro h
    simp [Put, h]

theorem put_conflict_spec_witness :
    Put putGroupEx 5 "a".toList 7 =
      (putGroupEx, some "a queue already exists at this index".toList) :=
  (put_conflict_spec putGroupEx 5 "a".toList 7).1 (by decide)

/-- C5: `Get` on a registered id returns the registered handle and
stamps `lastAccess[id] = now`; on an absent id it derives the backing
collection name from the id, runs the constructor / driver / start
pipeline, and on success registers the new handle in both maps with a
fresh timestamp and returns it. -/
theorem get_spec (g : QueueGroup) (env : Env) (now : Int) (id : Str) :
    (∀ q, lookupA g.queues id = some q →
      Get g env now id = (.ok q, { g with ttlMap := insertA g.ttlMap id now })) ∧
    (∀ q, lookupA g.queues id = none →
      startProcessingRemoteQueue env (collectionFromID g.pfx id) = .ok q →
      Get g env now id =
        (.ok q, { g with queues := insertA g.queues id q,
                         ttlMap := insertA g.ttlMap id now })) := by
  constructor
  · intro q h
    simp [Get, h]
  · intro q h1 h2
    simp [Get, h1, h2]

theorem get_spec_witness :
    Get getGroupEx getEnvEx 5 "a".toList =
      (.ok 7, { getGroupEx with queues := insertA getGroupEx.queues "a".toList 7,
                                ttlMap := insertA getGroupEx.ttlMap "a".toList 5 }) :=
  (get_spec getGroupEx getEnvEx 5 "a".toList).2 7 rfl rfl

/-- C10: when an absent id's construction pipeline fails, `Get`
returns the wrapped error and the manager is unchanged: neither the
registry nor the lastAccess map gains an entry for the id. -/
theorem get_error_preserves_state (g : QueueGroup) (env : Env) (now : Int)
    (id : Str) (e : Str) (h1 : lookupA g.queues id = none)
    (h2 : startProcessingRemoteQueue env (collectionFromID g.pfx id) = .error e) :
    Get g env now id = (.error (wrapErr "problem starting queue".toList e), g) := by
  simp [Get, h1, h2]

theorem get_error_preserves_state_witness :
    Get getFailGroupEx getFailEnvEx 5 "a".toList =
      (.error (wrapErr "problem starting queue".toList
        (wrapErr "problem starting queue".toList "boom".toList)), getFailGroupEx) :=
  get_error_preserves_state getFailGroupEx getFailEnvEx 5 "a".toList
    (wrapErr "problem starting queue".toList "boom".toList) rfl rfl

/-- C6: when at least one discovered collection's queue fails to
start, construction still attempts every discovered collection,
aggregates exactly the failing ones (in discovery order) into a single
`startFailures` error, and returns no manager. -/
theorem construction_aggregates_failures (opts : RemoteQueueGroupOptions)
    (mdbopts : MongoDBOptions) (store : List Coll) (now : Int) (numCPU : Nat)
    (env : Str → Except Str Nat) (hv : validateOpts opts = true)
    (hdb : mdbopts.db ≠ []) (huri : mdbopts.uri ≠ [])
    (hpr : (pruneAtConstruction opts store now numCPU).2 = false)
    (hfail : (getExistingCollections opts.pfx (pruneAtConstruction opts store now numCPU).1).filter
        (fun c => exceptIsError (env c)) ≠ []) :
    (NewMongoRemoteQueueGroup opts mdbopts store now numCPU env).result =
      .error (.startFailures
        ((getExistingCollections opts.pfx (pruneAtConstruction opts store now numCPU).1).filter
          (fun c => exceptIsError (env c)))) := by
  have hbq := buildQueues_fails opts.pfx env now
    (getExistingCollections opts.pfx (pruneAtConstruction opts store now numCPU).1) [] [] []
  rw [List.nil_append] at hbq
  simp only [NewMongoRemoteQueueGroup, hv, hpr, hbq]
  simp [hdb, huri, hbq, hfail]

theorem construction_aggregates_failures_witness :
    (NewMongoRemoteQueueGroup ctorOptsEx ctorMdbEx ctorStoreEx 0 1 ctorEnvEx).result =
      .error (.startFailures ["p.a.jobs".toList, "p.b.jobs".toList]) :=
  (construction_aggregates_failures ctorOptsEx ctorMdbEx ctorStoreEx 0 1 ctorEnvEx
    rfl (by decide) (by decide) (by decide) (by decide)).trans (by decide)

/-- C7: an empty database identity or an empty address makes
construction fail immediately with a configuration error: no manager
is returned, the store is untouched, and neither the synchronous prune
nor the discovery scan has run. -/
theorem construction_config_error (opts : RemoteQueueGroupOptions)
    (mdbopts : MongoDBOptions) (store : List Coll) (now : Int) (numCPU : Nat)
    (env : Str → Except Str Nat) (h : mdbopts.db = [] ∨ mdbopts.uri = []) :
    (∃ e, (NewMongoRemoteQueueGroup opts mdbopts store now numCPU env).result = .error e ∧
      e.isConfig = true) ∧
    (NewMongoRemoteQueueGroup opts mdbopts store now numCPU env).store = store ∧
    (NewMongoRemoteQueueGroup opts mdbopts store now numCPU env).didPrune = false ∧
    (NewMongoRemoteQueueGroup opts mdbopts store now numCPU env).didList = false := by
  by_cases hv : validateOpts opts = false
  · refine ⟨⟨.invalidOpts, ?_, rfl⟩, ?_, ?_, ?_⟩ <;>
      simp [NewMongoRemoteQueueGroup, hv]
  · rcases h with h | h
    · refine ⟨⟨.noDB, ?_, rfl⟩, ?_, ?_, ?_⟩ <;>
        simp [NewMongoRemoteQueueGroup, hv, h]
    · by_cases hdb : mdbopts.db = []
      · refine ⟨⟨.noDB, ?_, rfl⟩, ?_, ?_, ?_⟩ <;>
          simp [NewMongoRemoteQueueGroup, hv, hdb]
      · refine ⟨⟨.noURI, ?_, rfl⟩, ?_, ?_, ?_⟩ <;>
          simp [NewMongoRemoteQueueGroup, hv, hdb, h]

theorem construction_config_error_witness :
    (∃ e, (NewMongoRemoteQueueGroup cfgOptsEx cfgMdbEx cfgStoreEx 0 1
        (fun _ => .ok 1)).result = .error e ∧ e.isConfig = true) ∧
    (NewMongoRemoteQueueGroup cfgOptsEx cfgMdbEx cfgStoreEx 0 1
        (fun _ => .ok 1)).store = cfgStoreEx ∧
    (NewMongoRemoteQueueGroup cfgOptsEx cfgMdbEx cfgStoreEx 0 1
        (fun _ => .ok 1)).didPrune = false ∧
    (NewMongoRemoteQueueGroup cfgOptsEx cfgMdbEx cfgStoreEx 0 1
        (fun _ => .ok 1)).didList = false :=
  construction_config_error cfgOptsEx cfgMdbEx cfgStoreEx 0 1 (fun _ => .ok 1)
    (Or.inl rfl)

/-- C9: every operation keeps the registry map and the lastAccess map
on exactly the same key sequence: construction registers each
discovered id in both maps together; `Get` and `Put` insert into both
together (or refresh an id already keyed in both); and both of
`Prune`'s eviction passes delete the same ids from both maps. -/
theorem registry_ttlMap_same_keys :
    (∀ (opts : RemoteQueueGroupOptions) (mdbopts : MongoDBOptions) (store : List Coll)
        (now : Int) (numCPU : Nat) (env : Str → Except Str Nat) (g' : QueueGroup),
      (NewMongoRemoteQueueGroup opts mdbopts store now numCPU env).result = .ok g' →
      sameKeys g') ∧
    (∀ (g : QueueGroup) (env : Env) (now : Int) (id : Str),
      sameKeys g → sameKeys (Get g env now id).2) ∧
    (∀ (g : QueueGroup) (now : Int) (id : Str) (q : Nat),
      sameKeys g → sameKeys (Put g now id q).1) ∧
    (∀ (g : QueueGroup) (store : List Coll) (now : Int) (numCPU : Nat),
      sameKeys g → sameKeys (Prune g store now numCPU).group) := by
  refine ⟨?_, ?_, ?_, ?_⟩
  · intro opts mdbopts store now numCPU env g' h
    by_cases hv : validateOpts opts = false
    · simp [NewMongoRemoteQueueGroup, hv] at h
    · by_cases hdb : mdbopts.db = []
      · simp [NewMongoRemoteQueueGroup, hv, hdb] at h
      · by_cases huri : mdbopts.uri = []
        · simp [NewMongoRemoteQueueGroup, hv, hdb, huri] at h
        · by_cases hpr : (pruneAtConstruction opts store now numCPU).2 = true
          · simp [NewMongoRemoteQueueGroup, hv, hdb, huri, hpr] at h
          · by_cases hemp : (buildQueues opts.pfx env now
                (getExistingCollections opts.pfx (pruneAtConstruction opts store now numCPU).1)
                [] [] []).2.2.isEmpty
            · simp only [NewMongoRemoteQueueGroup, hv, hdb, huri, hpr, hemp] at h
              simp [hdb, huri, hpr, hemp] at h
              have hk := buildQueues_keys_eq opts.pfx env now
                (getExistingCollections opts.pfx (pruneAtConstruction opts store now numCPU).1)
                [] [] [] rfl
              rw [← h]
              exact hk
            · simp [NewMongoRemoteQueueGroup, hv, hdb, huri, hpr, hemp] at h
  · intro g env now id hsk
    unfold Get
    cases hq : lookupA g.queues id with
    | some q =>
      have hmem : id ∈ g.ttlMap.map Prod.fst := by
        rw [← hsk]
        exact lookupA_mem_keys g.queues id q hq
      show g.queues.map Prod.fst = (insertA g.ttlMap id now).map Prod.fst
      rw [insertA_keys_mem g.ttlMap id now hmem]
      exact hsk
    | none =>
      cases hs : startProcessingRemoteQueue env (collectionFromID g.pfx id) with
      | error e => exact hsk
      | ok q =>
        show (insertA g.queues id q).map Prod.fst = (insertA g.ttlMap id now).map Prod.fst
        exact insertA_keys_congr id q now g.queues g.ttlMap hsk
  · intro g now id q hsk
    unfold Put
    cases hq : lookupA g.queues id with
    | some q' => exact hsk
    | none =>
      show (insertA g.queues id q).map Prod.fst = (insertA g.ttlMap id now).map Prod.fst
      exact insertA_keys_congr id q now g.queues g.ttlMap hsk
  · intro g store now numCPU hsk
    show sameKeys (Prune g store now numCPU).group
    simp only [Prune]
    exact eraseAllA_keys_congr _ _ _ (eraseAllA_keys_congr _ _ _ hsk)

theorem registry_ttlMap_same_keys_witness :
    sameKeys (Put skGroupEx 5 "b".toList 7).1 :=
  registry_ttlMap_same_keys.2.2.1 skGroupEx 5 "b".toList 7 (by decide)
